import Mathlib

/-!
Shallow embedding of the auxiliary Python scripts of the repository:

* `.evergreen/get_latest_swift_patch.py` — the release-tag resolver,
* `Tests/MongoSwiftBenchmarks/benchmark.py` — the benchmark-log parser,
* `_scripts/update-index.py` — the documentation-index generator.

Strings are modelled as `String` / `List Char`; machine behaviour that the
scripts rely on (Python `str.split`, `re.match` on the concrete patterns used,
`sorted(..., reverse=True)` which is a stable descending sort, `str.isdigit`
restricted to ASCII digits as they occur in the data) is embedded by
executable Lean functions defined below, each annotated with the source line
it translates.
-/

namespace SwiftPatch

/-- Left-to-right literal prefix removal on character lists:
`dropPre p s = some r` exactly when `s = p ++ r`. Used to embed the anchored
literal parts of the regex `^swift-(MAJ\.MIN(\.(\d+))?)-RELEASE$`. -/
def dropPre : List Char → List Char → Option (List Char)
  | [], s => some s
  | _ :: _, [] => none
  | p :: ps, c :: cs => if p = c then dropPre ps cs else none

/-- Literal suffix removal: `dropSuf suf s = some r` exactly when `s = r ++ suf`. -/
def dropSuf (suf s : List Char) : Option (List Char) :=
  (dropPre suf.reverse s.reverse).map List.reverse

/-- Python `version.split('.')` (line 23 of the resolver): split on every
occurrence of the dot, keeping empty components. -/
def splitDots : List Char → List (List Char)
  | [] => [[]]
  | c :: cs =>
    if c = '.' then [] :: splitDots cs
    else
      match splitDots cs with
      | [] => [[c]]
      | r :: rs => (c :: r) :: rs

/-- Python `int(...)` on a string of decimal digits (line 40 of the resolver). -/
def digitsToNat (ds : List Char) : Nat :=
  ds.foldl (fun n c => 10 * n + (c.toNat - 48)) 0

/-- Substring containment, embedding Python's `in` operator on strings
(line 20 of the resolver). -/
def isInfixChars : List Char → List Char → Bool
  | pat, [] => pat.isEmpty
  | pat, c :: cs => pat.isPrefixOf (c :: cs) || isInfixChars pat cs

/-- Observable outcome of one script run: the single printed line and exit 0,
an explicit diagnostic printed before `exit(1)`, or an uncaught
`StopIteration` escaping from `next(...)` (traceback on stderr, exit 1,
nothing on stdout). -/
inductive ScriptOutcome where
  | ok (line : String)
  | errorMsg (msg : String)
  | iterationError
  deriving DecidableEq, Repr

/-- Process exit status of an outcome; an uncaught exception also makes the
Python interpreter exit with status 1. -/
def exitCode : ScriptOutcome → Nat
  | .ok _ => 0
  | .errorMsg _ => 1
  | .iterationError => 1

/-- Lines the run writes to standard output (Python `print` targets stdout;
a traceback goes to stderr). -/
def stdoutLines : ScriptOutcome → List String
  | .ok line => [line]
  | .errorMsg msg => [msg]
  | .iterationError => []

/-- Whether the run produced an explicit diagnostic message (as opposed to
succeeding or dying with a bare uncaught exception). -/
def emitsDiagnostic : ScriptOutcome → Bool
  | .errorMsg _ => true
  | _ => false

/-- The literal head of the tag pattern, `swift-`. -/
def swiftLit : List Char := "swift-".data

/-- The literal tail of the tag pattern, `-RELEASE`. -/
def releaseLit : List Char := "-RELEASE".data

/-- A successful match of the resolver's `version_regex`
(`^swift-(MAJ\.MIN(\.(\d+))?)-RELEASE$`, line 31): the first component is
group 1 (the full dotted version), the second is group 3 (the bare patch
digits), `none` when the optional patch group is absent. -/
abbrev ParsedTag := List Char × Option (List Char)

/-- The literal part of the pattern committed before the optional group:
`swift-MAJ.MIN`. -/
def verPre (major minor : List Char) : List Char :=
  swiftLit ++ major ++ '.' :: minor

/-- Embeds `re.match(version_regex, tag)` (line 37) for literal (digit-only)
major/minor components: the anchored pattern succeeds exactly on
`swift-MAJ.MIN-RELEASE` (no patch group) and `swift-MAJ.MIN.DIGITS-RELEASE`
(patch group `DIGITS`, one or more digits; `\d` here ranges over the ASCII
digits, the only ones occurring in the tag data). -/
def matchTagChars (major minor : List Char) (tag : String) : Option ParsedTag :=
  (dropPre (verPre major minor) tag.data).bind fun rest =>
    if rest = releaseLit then
      some (major ++ '.' :: minor, none)
    else if rest.head? = some '.' then
      (dropSuf releaseLit rest.tail).bind fun ds =>
        if !ds.isEmpty && ds.all Char.isDigit then
          some (major ++ '.' :: minor ++ '.' :: ds, some ds)
        else none
    else none

/-- Sort key of a match (line 40): `int(match.group(2)[1:])` when the patch
group is present, else `0`. -/
def patchVal : Option (List Char) → Nat
  | none => 0
  | some ds => digitsToNat ds

/-- The comparison under which the resolver's stable descending sort places
`a` no later than `b`: `a`'s patch number is at least `b`'s. -/
def matchGE (a b : ParsedTag) : Bool := decide (patchVal b.2 ≤ patchVal a.2)

/-- Stable insertion step: `x` (earlier in the original order) is placed
before the first element it compares greater-or-equal to. -/
def insertDescBy (ge : α → α → Bool) (x : α) : List α → List α
  | [] => [x]
  | y :: ys => if ge x y then x :: y :: ys else y :: insertDescBy ge x ys

/-- Stable descending sort, embedding Python `sorted(..., key=..., reverse=True)`
(line 40), which is specified to be stable: equal keys keep their original
relative order, also under `reverse=True`. Insertion sort is extensionally
equal to every stable sort. -/
def sortDescBy (ge : α → α → Bool) : List α → List α
  | [] => []
  | x :: xs => insertDescBy ge x (sortDescBy ge xs)

/-- One-pass scan returning the earliest element that compares
greater-or-equal to every other element (the first maximum). -/
def firstMaxBy (ge : α → α → Bool) : List α → Option α
  | [] => none
  | x :: xs =>
    match firstMaxBy ge xs with
    | none => some x
    | some y => if ge x y then some x else some y

/-- The numbered-version path of the resolver (lines 23–44): split the
specifier on dots, require exactly two components, match every release tag
against the anchored pattern, sort matches by patch number descending
(stable), and print group 1 of the first; `next` on an empty sequence
raises `StopIteration`. -/
def resolveVersion (version : String) (releases : List String) : ScriptOutcome :=
  match splitDots version.data with
  | [major, minor] =>
    match sortDescBy matchGE (releases.filterMap (matchTagChars major minor)) with
    | [] => .iterationError
    | m :: _ => .ok (String.mk m.1)
  | _ => .errorMsg ("Expected version number in form x.y, got " ++ version)

/-- Whether the numbered-version path reaches `requests.get` (line 33): the
network call is made exactly when the component-count check passed. -/
def releaseNetworkCallMade (version : String) : Bool :=
  (splitDots version.data).length == 2

/-- The development-snapshot marker substring tested on line 20. -/
def snapMarker : List Char := "swift-DEVELOPMENT-SNAPSHOT".data

/-- Python `'swift-DEVELOPMENT-SNAPSHOT' in tag['name']` (line 20). -/
def containsMarker (t : String) : Bool := isInfixChars snapMarker t.data

/-- The snapshot path (lines 19–21): take the first tag containing the
marker and print `name[6:]`, the name with its first six characters (the
literal `swift-`) removed; an empty filter makes `next` raise
`StopIteration`. -/
def snapshotOutcome (tags : List String) : ScriptOutcome :=
  match tags.find? containsMarker with
  | some t => .ok (String.mk (t.data.drop 6))
  | none => .iterationError

/-- The whole script for a single positional argument: the snapshot branch is
taken exactly on the literal `main-snapshot` (line 18), any other argument
goes to the numbered-version branch. -/
def runScript (argv1 : String) (tagData releaseData : List String) : ScriptOutcome :=
  if argv1 = "main-snapshot" then snapshotOutcome tagData
  else resolveVersion argv1 releaseData

/-- The four synthetic release tags used by the spec's worked example. -/
def demoReleases : List String :=
  ["swift-5.2-RELEASE", "swift-5.2.1-RELEASE", "swift-5.2.3-RELEASE",
   "swift-5.3.0-RELEASE"]

end SwiftPatch

namespace Benchmark

/-!
Embedding of `Tests/MongoSwiftBenchmarks/benchmark.py`. The script is
Python 2; the `sys.stdin.read()` line is commented out, so the loop runs over
the single hardcoded `results` entry and the piped-in benchmark log is never
consulted.
-/

/-- A token of the concrete search pattern
`\[.*\ (?P<name>.*)]: median time (?P<seconds>.*) seconds, score (?P<score>.*) `:
either a literal character run or a (possibly capturing) greedy `.*`. -/
inductive RTok where
  | lit (s : List Char)
  | star (capture : Bool)

/-- Backtracking matcher for a token list at the start of the input,
returning the captured groups of the first match found; a greedy `.*` tries
the longest candidate first and never crosses a newline, exactly as Python's
`.` does. A match need not consume the whole input (`re.search` semantics). -/
def rmatch : List RTok → List Char → Option (List (List Char))
  | [], _ => some []
  | .lit s :: ps, input =>
    match SwiftPatch.dropPre s input with
    | some rest => rmatch ps rest
    | none => none
  | .star cap :: ps, input =>
    ((List.range (input.length + 1)).reverse).findSome? fun k =>
      if (input.take k).any (· = '\n') then none
      else
        (rmatch ps (input.drop k)).map fun gs =>
          if cap then input.take k :: gs else gs

/-- `re.search`: try the pattern at every start position from the left and
keep the first position that matches. -/
def rsearch (p : List RTok) : List Char → Option (List (List Char))
  | [] => rmatch p []
  | c :: cs =>
    match rmatch p (c :: cs) with
    | some gs => some gs
    | none => rsearch p cs

/-- The pattern of `re.search` on line 14 of the benchmark script. -/
def benchPattern : List RTok :=
  [.lit "[".data, .star false, .lit " ".data, .star true,
   .lit "]: median time ".data, .star true, .lit " seconds, score ".data,
   .star true, .lit " ".data]

/-- The hardcoded `results` list (line 10 of the benchmark script). -/
def benchResults : List String :=
  ["Results for for -[MultiDocumentBenchmarks testFindManyAndEmptyCursor]: median time 0.022 seconds, score 705.7451 MB/s"]

/-- The loop of lines 13–21: for each result line, search the pattern, print
the three captured groups, and after the loop print the (never-populated)
`benchmarks` dict, which renders as the two-character empty-dict literal.
A failed search would make
`match.group` raise on `None` (modelled as `none`). -/
def benchProcess : List String → Option (List String)
  | [] => some ["{}"]
  | r :: rs =>
    match rsearch benchPattern r.data with
    | some [n, s, sc] =>
      (benchProcess rs).map fun rest =>
        String.mk n :: String.mk s :: String.mk sc :: rest
    | _ => none

/-- One run of the benchmark script as a function of the text piped to its
standard input. The `output = sys.stdin.read()` line and the filter deriving
`results` from it are commented out in the source, so the argument is unused. -/
def benchmarkRun (_stdinText : String) : Option (List String) :=
  benchProcess benchResults

end Benchmark

namespace DocsIndex

/-!
Embedding of `_scripts/update-index.py`: regenerate `docs/index.md` from the
listing of `./docs`, keeping only names that start with a digit, in reverse
lexicographic order, marking the first kept entry as current.
-/

/-- Python `dir[0].isdigit()` (line 8): the first character is a decimal
digit. A directory name returned by `os.listdir` is never empty. -/
def startsWithDigit (s : String) : Bool :=
  match s.data with
  | [] => false
  | c :: _ => c.isDigit

/-- Lexicographic order on code-point sequences, exactly Python's comparison
of strings: compare position by position by code point, a strict prefix
comes first. -/
def lexLE : List Char → List Char → Bool
  | [], _ => true
  | _ :: _, [] => false
  | a :: as, b :: bs =>
    if a.toNat = b.toNat then lexLE as bs else decide (a.toNat < b.toNat)

/-- The comparison under which Python's stable `sorted(..., reverse=True)`
places `a` no later than `b`: `b ≤ a` in the code-point lexicographic order. -/
def stringGE (a b : String) : Bool := lexLE b.data a.data

/-- The header line written on line 5 of the script. -/
def indexHeader : String := "# MongoSwift Documentation Index"

/-- The loop of lines 7–17 over the already-sorted listing, carrying the
`first` flag: non-digit names are skipped, the first digit name is rendered
with the marker suffix and the literal `current` link directory, every later
digit name links to its own directory. Each returned string is one written
line (without its trailing newline). -/
def indexEntries : Bool → List String → List String
  | _, [] => []
  | first, dir :: rest =>
    if startsWithDigit dir then
      (if first then
        "- [" ++ dir ++ " (current)](current/MongoSwift/index.html)"
      else
        "- [" ++ dir ++ "](" ++ dir ++ "/MongoSwift/index.html)")
      :: indexEntries false rest
    else indexEntries first rest

/-- The whole script as a function of the `./docs` listing: the lines written
to `docs/index.md`, in order. -/
def updateIndex (listing : List String) : List String :=
  indexHeader :: indexEntries true (SwiftPatch.sortDescBy stringGE listing)

/-- Rendering described by the claim, as a function of the already-filtered,
already-sorted digit-leading names: the first entry carries the marker suffix
and links to the literal current directory, every later entry links to its
own directory name. -/
def claimEntryLines : List String → List String
  | [] => []
  | first :: rest =>
    ("- [" ++ first ++ " (current)](current/MongoSwift/index.html)")
      :: rest.map (fun d => "- [" ++ d ++ "](" ++ d ++ "/MongoSwift/index.html)")

end DocsIndex

namespace SwiftPatch

/-! Characterizations of the literal-affix helpers. -/

theorem dropPre_eq_some {p : List Char} :
    ∀ {s r : List Char}, dropPre p s = some r ↔ s = p ++ r := by
  induction p with
  | nil => intro s r; simp [dropPre]
  | cons a ps ih =>
    intro s r
    cases s with
    | nil => simp [dropPre]
    | cons c cs =>
      by_cases h : a = c
      · subst h
        simp [dropPre, ih]
      · simp [dropPre, h, Ne.symm h]

theorem dropSuf_eq_some {suf s r : List Char} :
    dropSuf suf s = some r ↔ s = r ++ suf := by
  simp only [dropSuf, Option.map_eq_some']
  constructor
  · rintro ⟨t, ht, rfl⟩
    have h1 := dropPre_eq_some.mp ht
    have h2 : s = (suf.reverse ++ t).reverse := by
      rw [← h1, List.reverse_reverse]
    simpa [List.reverse_append] using h2
  · rintro rfl
    exact ⟨r.reverse, dropPre_eq_some.mpr (by simp), by simp⟩

/-! Properties of the stable descending insertion sort. -/

theorem insertDescBy_perm (ge : α → α → Bool) (x : α) (l : List α) :
    List.Perm (insertDescBy ge x l) (x :: l) := by
  induction l with
  | nil => exact List.Perm.refl _
  | cons y ys ih =>
    by_cases h : ge x y
    · simp [insertDescBy, h]
    · simp only [insertDescBy, h, if_neg, Bool.not_eq_true]
      exact (ih.cons y).trans (List.Perm.swap x y ys)

theorem sortDescBy_perm (ge : α → α → Bool) (l : List α) :
    List.Perm (sortDescBy ge l) l := by
  induction l with
  | nil => exact List.Perm.refl _
  | cons x xs ih =>
    exact (insertDescBy_perm ge x (sortDescBy ge xs)).trans (ih.cons x)

theorem pairwise_insertDescBy (ge : α → α → Bool)
    (htotal : ∀ a b, ge a b = false → ge b a = true)
    (htrans : ∀ a b c, ge a b = true → ge b c = true → ge a c = true)
    (x : α) : ∀ {l : List α}, (l.Pairwise fun a b => ge a b = true) →
      (insertDescBy ge x l).Pairwise fun a b => ge a b = true := by
  intro l
  induction l with
  | nil => intro _; simp [insertDescBy]
  | cons y ys ih =>
    intro hl
    rcases List.pairwise_cons.mp hl with ⟨hy, hys⟩
    by_cases h : ge x y
    · have hred : insertDescBy ge x (y :: ys) = x :: y :: ys := by
        simp [insertDescBy, h]
      rw [hred]
      refine List.pairwise_cons.mpr ⟨?_, hl⟩
      intro z hz
      rcases List.mem_cons.mp hz with rfl | hz
      · exact h
      · exact htrans _ _ _ h (hy z hz)
    · simp only [insertDescBy, h, if_neg, Bool.not_eq_true]
      refine List.pairwise_cons.mpr ⟨?_, ih hys⟩
      intro z hz
      have hz' := (insertDescBy_perm ge x ys).mem_iff.mp hz
      rcases List.mem_cons.mp hz' with rfl | hz'
      · exact htotal z y (Bool.not_eq_true _ ▸ (by simpa using h))
      · exact hy z hz'

theorem pairwise_sortDescBy (ge : α → α → Bool)
    (htotal : ∀ a b, ge a b = false → ge b a = true)
    (htrans : ∀ a b c, ge a b = true → ge b c = true → ge a c = true)
    (l : List α) : (sortDescBy ge l).Pairwise fun a b => ge a b = true := by
  induction l with
  | nil => simp [sortDescBy]
  | cons x xs ih => exact pairwise_insertDescBy ge htotal htrans x ih

theorem head?_sortDescBy (ge : α → α → Bool) (l : List α) :
    (sortDescBy ge l).head? = firstMaxBy ge l := by
  induction l with
  | nil => rfl
  | cons x xs ih =>
    show (insertDescBy ge x (sortDescBy ge xs)).head? = firstMaxBy ge (x :: xs)
    cases hs : sortDescBy ge xs with
    | nil =>
      have h1 : firstMaxBy ge xs = none := by rw [← ih, hs]; rfl
      simp [insertDescBy, firstMaxBy, h1]
    | cons y ys =>
      have h1 : firstMaxBy ge xs = some y := by rw [← ih, hs]; rfl
      by_cases h : ge x y
      · simp [insertDescBy, firstMaxBy, h1, h]
      · simp [insertDescBy, firstMaxBy, h1, h]

theorem firstMaxBy_eq_none (ge : α → α → Bool) {l : List α}
    (h : firstMaxBy ge l = none) : l = [] := by
  cases l with
  | nil => rfl
  | cons x xs =>
    exfalso
    cases hs : firstMaxBy ge xs with
    | none => simp [firstMaxBy, hs] at h
    | some y => by_cases hg : ge x y <;> simp [firstMaxBy, hs, hg] at h

theorem firstMaxBy_spec (ge : α → α → Bool)
    (hrefl : ∀ a, ge a a = true)
    (htotal : ∀ a b, ge a b = false → ge b a = true)
    (htrans : ∀ a b c, ge a b = true → ge b c = true → ge a c = true) :
    ∀ {l : List α} {m : α}, firstMaxBy ge l = some m →
      ∃ pre post, l = pre ++ m :: post ∧ (∀ x ∈ pre, ge x m = false) ∧
        ∀ x ∈ l, ge m x = true := by
  intro l
  induction l with
  | nil => intro m h; simp [firstMaxBy] at h
  | cons x xs ih =>
    intro m h
    cases hs : firstMaxBy ge xs with
    | none =>
      have hxs : xs = [] := firstMaxBy_eq_none ge hs
      subst hxs
      have hm : m = x := by
        simp [firstMaxBy] at h
        exact h.symm
      subst hm
      exact ⟨[], [], rfl, by simp, by simp [hrefl]⟩
    | some y =>
      by_cases hg : ge x y
      · have hm : m = x := by
          simp [firstMaxBy, hs, hg] at h
          exact h.symm
        subst hm
        obtain ⟨pre, post, hdec, hpre, hmax⟩ := ih hs
        refine ⟨[], xs, rfl, by simp, ?_⟩
        intro z hz
        rcases List.mem_cons.mp hz with rfl | hz
        · exact hrefl z
        · exact htrans _ _ _ hg (hmax z hz)
      · have hgf : ge x y = false := by simpa using hg
        have hm : m = y := by
          simp [firstMaxBy, hs, hg] at h
          exact h.symm
        subst hm
        obtain ⟨pre, post, hdec, hpre, hmax⟩ := ih hs
        refine ⟨x :: pre, post, by rw [hdec, List.cons_append], ?_, ?_⟩
        · intro z hz
          rcases List.mem_cons.mp hz with rfl | hz
          · exact hgf
          · exact hpre z hz
        · intro z hz
          rcases List.mem_cons.mp hz with rfl | hz
          · exact htotal _ _ hgf
          · exact hmax z hz

/-! Order properties of the resolver's comparison. -/

theorem matchGE_refl (a : ParsedTag) : matchGE a a = true :=
  decide_eq_true (Nat.le_refl _)

theorem matchGE_total (a b : ParsedTag) (h : matchGE a b = false) :
    matchGE b a = true := by
  simp only [matchGE, decide_eq_false_iff_not, Nat.not_le] at h
  exact decide_eq_true (Nat.le_of_lt h)

theorem matchGE_trans (a b c : ParsedTag)
    (hab : matchGE a b = true) (hbc : matchGE b c = true) :
    matchGE a c = true := by
  simp only [matchGE, decide_eq_true_eq] at hab hbc ⊢
  exact Nat.le_trans hbc hab

/-- The numbered-version path, characterized: on a well-formed specifier with
at least one matching tag it prints group 1 of the earliest match holding
the numerically greatest patch value. -/
theorem resolveVersion_spec {version : String} {major minor : List Char}
    (hsplit : splitDots version.data = [major, minor])
    {releases : List String}
    (hne : releases.filterMap (matchTagChars major minor) ≠ []) :
    ∃ m pre post,
      releases.filterMap (matchTagChars major minor) = pre ++ m :: post ∧
      (∀ x ∈ pre, patchVal x.2 < patchVal m.2) ∧
      (∀ x ∈ releases.filterMap (matchTagChars major minor),
        patchVal x.2 ≤ patchVal m.2) ∧
      resolveVersion version releases = .ok (String.mk m.1) := by
  cases hs : sortDescBy matchGE (releases.filterMap (matchTagChars major minor)) with
  | nil =>
    exfalso
    apply hne
    have hp := sortDescBy_perm matchGE (releases.filterMap (matchTagChars major minor))
    rw [hs] at hp
    exact hp.symm.eq_nil
  | cons m rest =>
    have hhead : firstMaxBy matchGE (releases.filterMap (matchTagChars major minor))
        = some m := by
      rw [← head?_sortDescBy, hs]
      rfl
    obtain ⟨pre, post, hdec, hpre, hmax⟩ :=
      firstMaxBy_spec matchGE matchGE_refl matchGE_total matchGE_trans hhead
    refine ⟨m, pre, post, hdec, ?_, ?_, ?_⟩
    · intro x hx
      have hx' := hpre x hx
      simpa [matchGE, decide_eq_false_iff_not, Nat.not_le] using hx'
    · intro x hx
      have hx' := hmax x hx
      simpa [matchGE, decide_eq_true_eq] using hx'
    · simp only [resolveVersion, hsplit, hs]

end SwiftPatch

namespace DocsIndex

/-! Order properties of the code-point lexicographic comparison. -/

theorem lexLE_cons (x y : Char) (xs ys : List Char) :
    lexLE (x :: xs) (y :: ys) =
      if x.toNat = y.toNat then lexLE xs ys else decide (x.toNat < y.toNat) :=
  rfl

theorem lexLE_total : ∀ a b : List Char, lexLE a b = false → lexLE b a = true := by
  intro a
  induction a with
  | nil => intro b h; simp [lexLE] at h
  | cons x xs ih =>
    intro b h
    cases b with
    | nil => rfl
    | cons y ys =>
      by_cases hxy : x.toNat = y.toNat
      · rw [lexLE_cons, if_pos hxy] at h
        rw [lexLE_cons, if_pos hxy.symm]
        exact ih ys h
      · rw [lexLE_cons, if_neg hxy, decide_eq_false_iff_not, Nat.not_lt] at h
        rw [lexLE_cons, if_neg (fun he => hxy he.symm), decide_eq_true_eq]
        omega

theorem lexLE_trans : ∀ a b c : List Char,
    lexLE a b = true → lexLE b c = true → lexLE a c = true := by
  intro a
  induction a with
  | nil => intro b c _ _; rfl
  | cons x xs ih =>
    intro b c hab hbc
    cases b with
    | nil => simp [lexLE] at hab
    | cons y ys =>
      cases c with
      | nil => simp [lexLE] at hbc
      | cons z zs =>
        by_cases hxy : x.toNat = y.toNat
        · rw [lexLE_cons, if_pos hxy] at hab
          by_cases hyz : y.toNat = z.toNat
          · rw [lexLE_cons, if_pos hyz] at hbc
            rw [lexLE_cons, if_pos (hxy.trans hyz)]
            exact ih ys zs hab hbc
          · rw [lexLE_cons, if_neg hyz, decide_eq_true_eq] at hbc
            have hxz : ¬ x.toNat = z.toNat := by omega
            rw [lexLE_cons, if_neg hxz, decide_eq_true_eq]
            omega
        · rw [lexLE_cons, if_neg hxy, decide_eq_true_eq] at hab
          by_cases hyz : y.toNat = z.toNat
          · have hxz : ¬ x.toNat = z.toNat := by omega
            rw [lexLE_cons, if_neg hxz, decide_eq_true_eq]
            omega
          · rw [lexLE_cons, if_neg hyz, decide_eq_true_eq] at hbc
            have hxz : ¬ x.toNat = z.toNat := by omega
            rw [lexLE_cons, if_neg hxz, decide_eq_true_eq]
            omega

theorem stringGE_total (a b : String) (h : stringGE a b = false) :
    stringGE b a = true :=
  lexLE_total _ _ h

theorem stringGE_trans (a b c : String)
    (hab : stringGE a b = true) (hbc : stringGE b c = true) :
    stringGE a c = true :=
  lexLE_trans _ _ _ hbc hab

/-- The rendering of a non-first kept entry. -/
def ownLine (d : String) : String :=
  "- [" ++ d ++ "](" ++ d ++ "/MongoSwift/index.html)"

theorem indexEntries_false (s : List String) :
    indexEntries false s = (s.filter startsWithDigit).map ownLine := by
  induction s with
  | nil => rfl
  | cons d rest ih =>
    by_cases h : startsWithDigit d <;>
      simp [indexEntries, h, ih, List.filter_cons, ownLine]

theorem indexEntries_true (s : List String) :
    indexEntries true s = claimEntryLines (s.filter startsWithDigit) := by
  induction s with
  | nil => rfl
  | cons d rest ih =>
    by_cases h : startsWithDigit d
    · simp [indexEntries, h, List.filter_cons, claimEntryLines,
        indexEntries_false, ownLine]
    · simp [indexEntries, h, List.filter_cons, ih]

end DocsIndex

namespace SwiftPatch

theorem find?_first {α : Type _} (p : α → Bool) :
    ∀ {pre : List α} {t : α} {post : List α},
      (∀ x ∈ pre, p x = false) → p t = true →
        (pre ++ t :: post).find? p = some t := by
  intro pre
  induction pre with
  | nil =>
    intro t post _ ht
    simpa using List.find?_cons_of_pos _ ht
  | cons a as ih =>
    intro t post hpre ht
    have ha : p a = false := hpre a (by simp)
    rw [List.cons_append, List.find?_cons_of_neg _ (by simp [ha])]
    exact ih (fun x hx => hpre x (by simp [hx])) ht

/-- C1: for every valid MAJOR.MINOR specifier and release list with at least
one matching tag, the resolver prints the dotted-version string (group 1) of
a matching tag of numerically greatest patch number; on the four synthetic
tags, specifier 5.2 yields 5.2.3 and specifier 5.3 yields 5.3.0. -/
theorem c1_highest_patch_resolved {version : String} {major minor : List Char}
    (hsplit : splitDots version.data = [major, minor])
    (hmaj : major ≠ [] ∧ major.all Char.isDigit = true)
    (hmin : minor ≠ [] ∧ minor.all Char.isDigit = true)
    {releases : List String}
    (hne : releases.filterMap (matchTagChars major minor) ≠ []) :
    (∃ m ∈ releases.filterMap (matchTagChars major minor),
        resolveVersion version releases = .ok (String.mk m.1) ∧
        ∀ x ∈ releases.filterMap (matchTagChars major minor),
          patchVal x.2 ≤ patchVal m.2) ∧
    resolveVersion "5.2" demoReleases = .ok "5.2.3" ∧
    resolveVersion "5.3" demoReleases = .ok "5.3.0" := by
  refine ⟨?_, by decide, by decide⟩
  obtain ⟨m, pre, post, hdec, hlt, hmax, hout⟩ := resolveVersion_spec hsplit hne
  refine ⟨m, ?_, hout, hmax⟩
  rw [hdec]
  exact List.mem_append_right _ (List.mem_cons_self _ _)

/-- Witness for C1 at specifier 5.2 over the four synthetic tags. -/
theorem c1_highest_patch_resolved_witness :
    splitDots ("5.2" : String).data = [['5'], ['2']] ∧
    demoReleases.filterMap (matchTagChars ['5'] ['2']) ≠ [] ∧
    ((∃ m ∈ demoReleases.filterMap (matchTagChars ['5'] ['2']),
        resolveVersion "5.2" demoReleases = .ok (String.mk m.1) ∧
        ∀ x ∈ demoReleases.filterMap (matchTagChars ['5'] ['2']),
          patchVal x.2 ≤ patchVal m.2) ∧
      resolveVersion "5.2" demoReleases = .ok "5.2.3" ∧
      resolveVersion "5.3" demoReleases = .ok "5.3.0") :=
  ⟨by decide, by decide,
    @c1_highest_patch_resolved "5.2" ['5'] ['2'] (by decide) (by decide) (by decide)
      demoReleases (by decide)⟩

/-- C2 counterexample: on the tag list of the claim the snapshot path prints
the name with only its first six characters removed, which is not the
claimed marker-stripped remainder 2023-01-01-a. -/
theorem c2_counterexample :
    snapshotOutcome ["swift-DEVELOPMENT-SNAPSHOT-2023-01-01-a"]
        = .ok "DEVELOPMENT-SNAPSHOT-2023-01-01-a" ∧
    ScriptOutcome.ok "DEVELOPMENT-SNAPSHOT-2023-01-01-a"
        ≠ .ok "2023-01-01-a" := by decide

/-- C2 (amended): the snapshot path selects the first tag in endpoint order
containing the marker substring and prints that tag with its first six
characters (the literal swift- prefix) removed; on the claimed tag list the
result is DEVELOPMENT-SNAPSHOT-2023-01-01-a. -/
theorem c2_snapshot_strips_swift {pre post : List String} {t : String}
    (hpre : ∀ x ∈ pre, containsMarker x = false)
    (ht : containsMarker t = true) :
    snapshotOutcome (pre ++ t :: post) = .ok (String.mk (t.data.drop 6)) ∧
    snapshotOutcome ["swift-DEVELOPMENT-SNAPSHOT-2023-01-01-a"]
        = .ok "DEVELOPMENT-SNAPSHOT-2023-01-01-a" := by
  constructor
  · unfold snapshotOutcome
    rw [find?_first containsMarker hpre ht]
  · decide

/-- Witness for C2 (amended) with one non-matching tag in front. -/
theorem c2_snapshot_strips_swift_witness :
    (∀ x ∈ (["swift-5.1-RELEASE"] : List String), containsMarker x = false) ∧
    containsMarker "swift-DEVELOPMENT-SNAPSHOT-2023-01-01-a" = true ∧
    (snapshotOutcome
          (["swift-5.1-RELEASE"] ++ "swift-DEVELOPMENT-SNAPSHOT-2023-01-01-a" :: [])
        = .ok (String.mk
            (("swift-DEVELOPMENT-SNAPSHOT-2023-01-01-a" : String).data.drop 6)) ∧
      snapshotOutcome ["swift-DEVELOPMENT-SNAPSHOT-2023-01-01-a"]
        = .ok "DEVELOPMENT-SNAPSHOT-2023-01-01-a") :=
  ⟨by decide, by decide,
    @c2_snapshot_strips_swift ["swift-5.1-RELEASE"] []
      "swift-DEVELOPMENT-SNAPSHOT-2023-01-01-a" (by decide) (by decide)⟩

/-- C3 counterexample: with specifier 9.9 and an empty release list the run
dies with an uncaught StopIteration; no diagnostic message naming the
specifier is emitted. -/
theorem c3_counterexample :
    resolveVersion "9.9" [] = .iterationError ∧
    emitsDiagnostic (resolveVersion "9.9" []) = false ∧
    stdoutLines (resolveVersion "9.9" []) = [] := by decide

/-- C3 (amended): when zero tags match a well-formed specifier, the resolver
exits non-zero and prints no version string to standard output, but it fails
through an uncaught StopIteration from next and emits no diagnostic message
naming the specifier. -/
theorem c3_empty_matches_stop_iteration {version : String} {major minor : List Char}
    (hsplit : splitDots version.data = [major, minor])
    {releases : List String}
    (hempty : releases.filterMap (matchTagChars major minor) = []) :
    resolveVersion version releases = .iterationError ∧
    stdoutLines (resolveVersion version releases) = [] ∧
    exitCode (resolveVersion version releases) = 1 ∧
    emitsDiagnostic (resolveVersion version releases) = false := by
  have h : resolveVersion version releases = .iterationError := by
    simp [resolveVersion, hsplit, hempty, sortDescBy]
  rw [h]
  exact ⟨rfl, rfl, rfl, rfl⟩

/-- Witness for C3 (amended) at specifier 7.1 against one non-matching tag. -/
theorem c3_empty_matches_stop_iteration_witness :
    splitDots ("7.1" : String).data = [['7'], ['1']] ∧
    (["swift-6.0-RELEASE"] : List String).filterMap (matchTagChars ['7'] ['1']) = [] ∧
    (resolveVersion "7.1" ["swift-6.0-RELEASE"] = .iterationError ∧
      stdoutLines (resolveVersion "7.1" ["swift-6.0-RELEASE"]) = [] ∧
      exitCode (resolveVersion "7.1" ["swift-6.0-RELEASE"]) = 1 ∧
      emitsDiagnostic (resolveVersion "7.1" ["swift-6.0-RELEASE"]) = false) :=
  ⟨by decide, by decide,
    @c3_empty_matches_stop_iteration "7.1" ['7'] ['1'] (by decide)
      ["swift-6.0-RELEASE"] (by decide)⟩

/-- C4 counterexample: the two-component but non-numeric specifier a.b is
not rejected; the run proceeds to the network fetch and then dies with an
uncaught StopIteration instead of an InvalidArgument diagnostic. -/
theorem c4_counterexample :
    resolveVersion "a.b" [] = .iterationError ∧
    emitsDiagnostic (resolveVersion "a.b" []) = false ∧
    releaseNetworkCallMade "a.b" = true := by decide

/-- C4 (amended): only the dot-component count is validated: a specifier
that does not split into exactly two dot-separated components is rejected
with a diagnostic naming the input, exit status 1, and no network call;
numeric content of the two components is not checked. -/
theorem c4_component_count_validation {version : String}
    (h : (splitDots version.data).length ≠ 2) (releases : List String) :
    resolveVersion version releases
        = .errorMsg ("Expected version number in form x.y, got " ++ version) ∧
    emitsDiagnostic (resolveVersion version releases) = true ∧
    exitCode (resolveVersion version releases) = 1 ∧
    releaseNetworkCallMade version = false := by
  have hmsg : resolveVersion version releases
      = .errorMsg ("Expected version number in form x.y, got " ++ version) := by
    unfold resolveVersion
    cases hl : splitDots version.data with
    | nil => rfl
    | cons a t =>
      cases t with
      | nil => rfl
      | cons b u =>
        cases u with
        | nil => exact absurd (by rw [hl]; rfl) h
        | cons c v => rfl
  rw [hmsg]
  refine ⟨rfl, rfl, rfl, ?_⟩
  simp only [releaseNetworkCallMade, beq_eq_false_iff_ne, ne_eq]
  exact h

/-- Witness for C4 (amended) at the single-component specifier 5. -/
theorem c4_component_count_validation_witness :
    (splitDots ("5" : String).data).length ≠ 2 ∧
    (resolveVersion "5" [] = .errorMsg "Expected version number in form x.y, got 5" ∧
      emitsDiagnostic (resolveVersion "5" []) = true ∧
      exitCode (resolveVersion "5" []) = 1 ∧
      releaseNetworkCallMade "5" = false) :=
  ⟨by decide, by
    have h := @c4_component_count_validation "5" (by decide) []
    simpa using h⟩

/-- C5: a matched tag with absent patch group is ranked with patch number 0,
tying with an explicit patch 0 and ranking strictly below any positive
patch, while a selected patch-less tag prints its original dotted string
without a normalized trailing zero. -/
theorem c5_absent_patch_rank :
    (∀ x y : ParsedTag, x.2 = none → y.2 = some ['0'] →
        matchGE x y = true ∧ matchGE y x = true) ∧
    (∀ x y : ParsedTag, ∀ ds, x.2 = none → y.2 = some ds →
        1 ≤ digitsToNat ds → matchGE x y = false ∧ matchGE y x = true) ∧
    resolveVersion "5.2" ["swift-5.2.0-RELEASE", "swift-5.2-RELEASE"] = .ok "5.2.0" ∧
    resolveVersion "5.2" ["swift-5.2-RELEASE", "swift-5.2.0-RELEASE"] = .ok "5.2" ∧
    resolveVersion "5.2" ["swift-5.2.1-RELEASE", "swift-5.2-RELEASE"] = .ok "5.2.1" := by
  refine ⟨?_, ?_, by decide, by decide, by decide⟩
  · intro x y hx hy
    constructor <;> simp [matchGE, hx, hy, patchVal, digitsToNat]
  · intro x y ds hx hy hds
    constructor
    · simp only [matchGE, hx, hy, patchVal, decide_eq_false_iff_not, Nat.not_le]
      omega
    · simp [matchGE, hx, hy, patchVal]

/-- Witness for C5 at concrete parsed tags. -/
theorem c5_absent_patch_rank_witness :
    matchGE (['5', '.', '2'], none) (['5', '.', '2', '.', '0'], some ['0']) = true ∧
    matchGE (['5', '.', '2'], none) (['5', '.', '2', '.', '1'], some ['1']) = false :=
  ⟨(c5_absent_patch_rank.1 _ _ rfl rfl).1,
    (c5_absent_patch_rank.2.1 _ _ ['1'] rfl rfl (by decide)).1⟩

/-- C6: every candidate produced for a MAJOR.MINOR request comes from a tag
of the full anchored form: the literal prefix, exactly the requested major
and minor, an optional dot-digits patch group, and the literal release
suffix; tags of any other form, in particular with a different major/minor,
yield no candidate. -/
theorem c6_anchored_candidates {major minor : List Char} {tag : String}
    {v : List Char} {p : Option (List Char)}
    (hmaj : major ≠ [] ∧ major.all Char.isDigit = true)
    (hmin : minor ≠ [] ∧ minor.all Char.isDigit = true)
    (h : matchTagChars major minor tag = some (v, p)) :
    tag.data = swiftLit ++ v ++ releaseLit ∧
    ((p = none ∧ v = major ++ '.' :: minor) ∨
      ∃ ds, p = some ds ∧ ds ≠ [] ∧ ds.all Char.isDigit = true ∧
        v = major ++ '.' :: minor ++ '.' :: ds) := by
  unfold matchTagChars at h
  rcases hd : dropPre (verPre major minor) tag.data with _ | rest
  · rw [hd, Option.none_bind] at h
    exact absurd h (by simp)
  · rw [hd, Option.some_bind] at h
    have htag : tag.data = verPre major minor ++ rest := dropPre_eq_some.mp hd
    by_cases hrel : rest = releaseLit
    · rw [if_pos hrel] at h
      injection h with h2
      injection h2 with hv hp
      subst hv
      subst hp
      refine ⟨?_, Or.inl ⟨rfl, rfl⟩⟩
      rw [htag, hrel, verPre, swiftLit]
      simp [List.append_assoc]
    · rw [if_neg hrel] at h
      by_cases hr0 : rest.head? = some '.'
      · rw [if_pos hr0] at h
        rcases hds : dropSuf releaseLit rest.tail with _ | ds
        · rw [hds, Option.none_bind] at h
          exact absurd h (by simp)
        · rw [hds, Option.some_bind] at h
          have htail : rest.tail = ds ++ releaseLit := dropSuf_eq_some.mp hds
          by_cases hok : (!ds.isEmpty && ds.all Char.isDigit) = true
          · rw [if_pos hok] at h
            injection h with h2
            injection h2 with hv hp
            subst hv
            subst hp
            rw [Bool.and_eq_true] at hok
            obtain ⟨hne2, hdig⟩ := hok
            have hdsne : ds ≠ [] := by
              intro hnil
              rw [hnil] at hne2
              simp at hne2
            refine ⟨?_, Or.inr ⟨ds, rfl, hdsne, hdig, rfl⟩⟩
            have hrest : rest = '.' :: (ds ++ releaseLit) := by
              cases rest with
              | nil => simp at hr0
              | cons r0 rest2 =>
                simp only [List.head?, Option.some.injEq] at hr0
                simp only [List.tail_cons] at htail
                rw [hr0, htail]
            rw [htag, hrest, verPre, swiftLit]
            simp [List.append_assoc]
          · rw [if_neg hok] at h
            exact absurd h (by simp)
      · rw [if_neg hr0] at h
        exact absurd h (by simp)

/-- Witness for C6 at the tag swift-5.2.3-RELEASE and specifier 5.2. -/
theorem c6_anchored_candidates_witness :
    matchTagChars ['5'] ['2'] "swift-5.2.3-RELEASE"
        = some (['5', '.', '2', '.', '3'], some ['3']) ∧
    (("swift-5.2.3-RELEASE" : String).data
        = swiftLit ++ ['5', '.', '2', '.', '3'] ++ releaseLit ∧
      (((some ['3'] : Option (List Char)) = none ∧
          ['5', '.', '2', '.', '3'] = ['5'] ++ '.' :: ['2']) ∨
        ∃ ds, (some ['3'] : Option (List Char)) = some ds ∧ ds ≠ [] ∧
          ds.all Char.isDigit = true ∧
          ['5', '.', '2', '.', '3'] = ['5'] ++ '.' :: ['2'] ++ '.' :: ds)) :=
  ⟨by decide,
    @c6_anchored_candidates ['5'] ['2'] "swift-5.2.3-RELEASE"
      ['5', '.', '2', '.', '3'] (some ['3']) (by decide) (by decide) (by decide)⟩

/-- C7: with the matches in endpoint order, the printed result is the
earliest match among those of maximal patch value: every strictly earlier
match has a strictly smaller patch value and no match has a larger one; in
particular two textually different tags with equal numeric patch resolve to
the earlier one. -/
theorem c7_stable_tie_break {version : String} {major minor : List Char}
    (hsplit : splitDots version.data = [major, minor])
    {releases : List String}
    (hne : releases.filterMap (matchTagChars major minor) ≠ []) :
    (∃ m pre post,
        releases.filterMap (matchTagChars major minor) = pre ++ m :: post ∧
        (∀ x ∈ pre, patchVal x.2 < patchVal m.2) ∧
        (∀ x ∈ releases.filterMap (matchTagChars major minor),
          patchVal x.2 ≤ patchVal m.2) ∧
        resolveVersion version releases = .ok (String.mk m.1)) ∧
    resolveVersion "5.2" ["swift-5.2.01-RELEASE", "swift-5.2.1-RELEASE"]
        = .ok "5.2.01" :=
  ⟨resolveVersion_spec hsplit hne, by decide⟩

/-- Witness for C7 at specifier 5.2 over two tags tying at patch 1. -/
theorem c7_stable_tie_break_witness :
    splitDots ("5.2" : String).data = [['5'], ['2']] ∧
    (["swift-5.2.01-RELEASE", "swift-5.2.1-RELEASE"] : List String).filterMap
        (matchTagChars ['5'] ['2']) ≠ [] ∧
    ((∃ m pre post,
        (["swift-5.2.01-RELEASE", "swift-5.2.1-RELEASE"] : List String).filterMap
            (matchTagChars ['5'] ['2']) = pre ++ m :: post ∧
        (∀ x ∈ pre, patchVal x.2 < patchVal m.2) ∧
        (∀ x ∈ (["swift-5.2.01-RELEASE", "swift-5.2.1-RELEASE"] : List String).filterMap
            (matchTagChars ['5'] ['2']),
          patchVal x.2 ≤ patchVal m.2) ∧
        resolveVersion "5.2" ["swift-5.2.01-RELEASE", "swift-5.2.1-RELEASE"]
            = .ok (String.mk m.1)) ∧
      resolveVersion "5.2" ["swift-5.2.01-RELEASE", "swift-5.2.1-RELEASE"]
          = .ok "5.2.01") :=
  ⟨by decide, by decide,
    @c7_stable_tie_break "5.2" ['5'] ['2'] (by decide)
      ["swift-5.2.01-RELEASE", "swift-5.2.1-RELEASE"] (by decide)⟩

/-- C8: the script run is a pure function of its argument and the two
fetched listings: two invocations with equal argument and equal listings
produce equal standard output and equal exit status; the embedding carries
no other state. -/
theorem c8_deterministic (a1 a2 : String) (t1 t2 r1 r2 : List String)
    (ha : a1 = a2) (ht : t1 = t2) (hr : r1 = r2) :
    stdoutLines (runScript a1 t1 r1) = stdoutLines (runScript a2 t2 r2) ∧
    exitCode (runScript a1 t1 r1) = exitCode (runScript a2 t2 r2) := by
  subst ha
  subst ht
  subst hr
  exact ⟨rfl, rfl⟩

/-- Witness for C8 at specifier 5.2 over the synthetic release tags. -/
theorem c8_deterministic_witness :
    ("5.2" : String) = "5.2" ∧
    (stdoutLines (runScript "5.2" [] demoReleases)
        = stdoutLines (runScript "5.2" [] demoReleases) ∧
      exitCode (runScript "5.2" [] demoReleases)
        = exitCode (runScript "5.2" [] demoReleases)) :=
  ⟨rfl, c8_deterministic "5.2" "5.2" [] [] demoReleases demoReleases rfl rfl rfl⟩

end SwiftPatch

namespace Benchmark

/-- C9: the benchmark-log parser's output does not depend on the text piped
to its standard input: the stdin read is commented out in the source, so any
two runs produce identical output. -/
theorem c9_stdin_independent (s t : String) :
    benchmarkRun s = benchmarkRun t := rfl

end Benchmark

namespace DocsIndex

/-- C10: the generated index is the header line followed by exactly one
entry per digit-leading name of the listing, in reverse lexicographic
order; the first entry carries the current marker and links to the current
directory, each later entry links to its own directory name, and non-digit
names are omitted. -/
theorem c10_index_contents (listing : List String) :
    updateIndex listing =
      indexHeader ::
        claimEntryLines
          ((SwiftPatch.sortDescBy stringGE listing).filter startsWithDigit) ∧
    List.Perm (SwiftPatch.sortDescBy stringGE listing) listing ∧
    ((SwiftPatch.sortDescBy stringGE listing).filter startsWithDigit).Pairwise
      (fun a b => stringGE a b = true) := by
  refine ⟨?_, SwiftPatch.sortDescBy_perm _ _, ?_⟩
  · unfold updateIndex
    rw [indexEntries_true]
  · exact List.Pairwise.sublist (List.filter_sublist _)
      (SwiftPatch.pairwise_sortDescBy _ stringGE_total stringGE_trans listing)

end DocsIndex
